import Mathlib

/-!
Shallow embedding of `scripts/check-contentful-env.js` from the
`contentful-cleanup` repository, together with theorems checking the
natural-language specification's claims about it.

Strings of the script are modelled by Lean `String`; the character-level
operations (`String.prototype.includes`, `split('/')`, `join('/')`) are
embedded as executable functions on `List Char`.
-/

/-- JS `s.startsWith(pat)` on character lists: `startsWithL s pat` is `true`
iff `pat` is an initial segment of `s`. -/
def startsWithL : List Char → List Char → Bool
  | _, [] => true
  | [], _ :: _ => false
  | a :: as, b :: bs => a == b && startsWithL as bs

/-- JS `s.includes(pat)` (substring containment) on character lists:
`pat` occurs contiguously somewhere in `s`. -/
def containsSubL : List Char → List Char → Bool
  | [], pat => startsWithL [] pat
  | c :: rest, pat => startsWithL (c :: rest) pat || containsSubL rest pat

/-- JS `s.includes(sub)` on strings. -/
def strIncludes (s sub : String) : Bool :=
  containsSubL s.data sub.data

/-- Mathematical substring relation: `pat` occurs contiguously in `s`. -/
def SubstringOf (pat s : List Char) : Prop :=
  ∃ a b, s = a ++ pat ++ b

/-- JS `s.split('/')` on character lists (splits on every `'/'`;
`[] ↦ [[]]`, separators at the ends produce empty fields). -/
def splitOnSlash : List Char → List (List Char)
  | [] => [[]]
  | c :: cs =>
    if c = '/' then [] :: splitOnSlash cs
    else
      match splitOnSlash cs with
      | [] => [[c]]
      | p :: ps => (c :: p) :: ps

/-- JS `parts.join('/')` on character lists. -/
def joinSlash : List (List Char) → List Char
  | [] => []
  | [p] => p
  | p :: ps => p ++ '/' :: joinSlash ps

/-- JS `branchName.includes('/')`. -/
def hasSlash (l : List Char) : Bool := l.contains '/'

/-- The script's `searchName` computation on character lists:
`branchName.includes('/') ? branchName.split('/').slice(1).join('/') : branchName`. -/
def searchNameL (branch : List Char) : List Char :=
  if hasSlash branch then joinSlash ((splitOnSlash branch).drop 1) else branch

/-- The script's `searchName`, on strings. -/
def searchName (branch : String) : String :=
  ⟨searchNameL branch.data⟩

/-- Everything after the first `'/'` of the list (the list itself has no
occurrence before the returned suffix); used to state the spec's description
of the search term. -/
def afterFirstSlash : List Char → List Char
  | [] => []
  | c :: cs => if c = '/' then cs else afterFirstSlash cs

theorem splitOnSlash_ne_nil (l : List Char) : splitOnSlash l ≠ [] := by
  cases l with
  | nil => simp [splitOnSlash]
  | cons c cs =>
    simp only [splitOnSlash]
    split
    · simp
    · cases h : splitOnSlash cs <;> simp

theorem joinSlash_splitOnSlash (l : List Char) : joinSlash (splitOnSlash l) = l := by
  induction l with
  | nil => rfl
  | cons c cs ih =>
    simp only [splitOnSlash]
    split
    · rename_i hc
      subst hc
      cases h : splitOnSlash cs with
      | nil => exact absurd h (splitOnSlash_ne_nil cs)
      | cons p ps =>
        rw [h] at ih
        simp [joinSlash, ih]
    · cases h : splitOnSlash cs with
      | nil => exact absurd h (splitOnSlash_ne_nil cs)
      | cons p ps =>
        rw [h] at ih
        cases ps with
        | nil => simpa [joinSlash] using ih
        | cons q qs => simpa [joinSlash] using ih

theorem searchNameL_of_slash (l : List Char) (h : hasSlash l = true) :
    searchNameL l = afterFirstSlash l := by
  induction l with
  | nil => simp [hasSlash] at h
  | cons c cs ih =>
    by_cases hc : c = '/'
    · subst hc
      simp only [searchNameL, hasSlash, List.contains_cons, beq_self_eq_true, Bool.true_or,
        if_true, splitOnSlash, if_pos rfl, List.drop_succ_cons, List.drop_zero,
        afterFirstSlash, if_pos rfl]
      exact joinSlash_splitOnSlash cs
    · have hcs : hasSlash cs = true := by
        simp only [hasSlash, List.contains_cons] at h
        rcases Bool.or_eq_true_iff.mp h with h1 | h1
        · exact absurd (eq_of_beq h1).symm hc
        · exact h1
      have ihcs := ih hcs
      simp only [searchNameL, hcs, if_true, afterFirstSlash, if_neg hc] at ihcs ⊢
      simp only [searchNameL, h, if_true]
      simp only [splitOnSlash, if_neg hc]
      cases hsp : splitOnSlash cs with
      | nil => exact absurd hsp (splitOnSlash_ne_nil cs)
      | cons p ps =>
        rw [hsp] at ihcs
        simpa using ihcs

theorem searchNameL_of_no_slash (l : List Char) (h : hasSlash l = false) :
    searchNameL l = l := by
  simp [searchNameL, h]

theorem startsWithL_iff (s pat : List Char) :
    startsWithL s pat = true ↔ ∃ t, s = pat ++ t := by
  induction pat generalizing s with
  | nil => simp [startsWithL]
  | cons b bs ih =>
    cases s with
    | nil => simp [startsWithL]
    | cons a as =>
      simp only [startsWithL, Bool.and_eq_true, beq_iff_eq, ih, List.cons_append,
        List.cons.injEq]
      constructor
      · rintro ⟨rfl, t, rfl⟩
        exact ⟨t, rfl, rfl⟩
      · rintro ⟨t, rfl, rfl⟩
        exact ⟨rfl, t, rfl⟩

theorem containsSubL_iff (s pat : List Char) :
    containsSubL s pat = true ↔ SubstringOf pat s := by
  induction s with
  | nil =>
    simp only [containsSubL, startsWithL_iff, SubstringOf]
    constructor
    · rintro ⟨t, ht⟩
      exact ⟨[], t, ht⟩
    · rintro ⟨a, b, hab⟩
      rcases List.append_eq_nil.mp (List.append_eq_nil.mp hab.symm).1 with ⟨h1, h2⟩
      exact ⟨[], by simp [h2]⟩
  | cons c rest ih =>
    simp only [containsSubL, Bool.or_eq_true, startsWithL_iff, ih, SubstringOf]
    constructor
    · rintro (⟨t, ht⟩ | ⟨a, b, hab⟩)
      · exact ⟨[], t, by simpa using ht⟩
      · exact ⟨c :: a, b, by simp [hab]⟩
    · rintro ⟨a, b, hab⟩
      cases a with
      | nil => exact Or.inl ⟨b, by simpa using hab⟩
      | cons a0 as =>
        right
        refine ⟨as, b, ?_⟩
        simpa using (List.cons.injEq .. ▸ hab :
          c = a0 ∧ rest = as ++ pat ++ b).2

/-- The empty pattern `[]` is a substring of everything (JS `s.includes("")` is `true`). -/
theorem containsSubL_nil (s : List Char) : containsSubL s [] = true := by
  cases s <;> simp [containsSubL, startsWithL]

theorem afterFirstSlash_decomp (l : List Char) (hmem : '/' ∈ l) :
    ∃ a : List Char, ¬ '/' ∈ a ∧ l = a ++ '/' :: afterFirstSlash l := by
  induction l with
  | nil => simp at hmem
  | cons c cs ih =>
    by_cases hc : c = '/'
    · subst hc
      exact ⟨[], by simp, by simp [afterFirstSlash]⟩
    · have hmem' : '/' ∈ cs := by
        rcases List.mem_cons.mp hmem with h1 | h1
        · exact absurd h1.symm hc
        · exact h1
      rcases ih hmem' with ⟨a, ha, hEq⟩
      refine ⟨c :: a, by simp [ha, Ne.symm hc], ?_⟩
      have : afterFirstSlash (c :: cs) = afterFirstSlash cs := by
        simp [afterFirstSlash, hc]
      rw [this]
      simpa using hEq

theorem hasSlash_iff_mem (l : List Char) : hasSlash l = true ↔ '/' ∈ l := by
  induction l with
  | nil => simp [hasSlash]
  | cons c cs ih =>
    simp only [hasSlash, List.contains_cons, Bool.or_eq_true, beq_iff_eq,
      List.mem_cons] at ih ⊢
    constructor
    · rintro (h1 | h1)
      · exact Or.inl h1
      · exact Or.inr (ih.mp h1)
    · rintro (h1 | h1)
      · exact Or.inl h1
      · exact Or.inr (ih.mpr h1)

/-- C1: for every non-empty branch name, if it contains `'/'` the computed
search term is exactly the suffix after the first `'/'` (the part before it
is slash-free), and otherwise the search term is the branch name unchanged. -/
theorem searchName_after_first_slash (branch : String) (h : branch ≠ "") :
    (hasSlash branch.data = true →
      ∃ a : List Char, ¬ '/' ∈ a ∧ branch.data = a ++ '/' :: (searchName branch).data) ∧
    (hasSlash branch.data = false → searchName branch = branch) := by
  constructor
  · intro hs
    have hafter : (searchName branch).data = afterFirstSlash branch.data := by
      show searchNameL branch.data = _
      exact searchNameL_of_slash branch.data hs
    rw [hafter]
    exact afterFirstSlash_decomp branch.data ((hasSlash_iff_mem branch.data).mp hs)
  · intro hs
    have : searchNameL branch.data = branch.data := searchNameL_of_no_slash branch.data hs
    show String.mk (searchNameL branch.data) = branch
    rw [this]

theorem searchName_after_first_slash_witness :
    (∃ a : List Char, ¬ '/' ∈ a ∧
      "feat/test-env".data = a ++ '/' :: (searchName "feat/test-env").data) ∧
    searchName "main" = "main" :=
  ⟨(searchName_after_first_slash "feat/test-env" (by decide)).1 (by decide),
   (searchName_after_first_slash "main" (by decide)).2 (by decide)⟩

/-- An environment record as used by the script's matching: `id` models
`env.sys.id` and `name` models `env.name`. (The record also carries audit
metadata — timestamps and user references — which the matching never reads;
the displayed creator reference is modelled separately by `renderedUserRef`.) -/
structure EnvRecord where
  id : String
  name : String
deriving DecidableEq

instance : Decidable (SubstringOf pat s) :=
  decidable_of_iff (containsSubL s pat = true) (containsSubL_iff s pat)

/-- The predicate of the script's `exactMatches` filter:
`env.name === searchName || env.sys.id === searchName`. -/
def isExactMatch (searchTerm : String) (env : EnvRecord) : Bool :=
  env.name == searchTerm || env.id == searchTerm

/-- The predicate of the script's `partialMatches` filter:
`!isExactMatch && (containsInId || containsInName)`. -/
def isPartialMatch (searchTerm : String) (env : EnvRecord) : Bool :=
  !(env.name == searchTerm || env.id == searchTerm) &&
    (strIncludes env.id searchTerm || strIncludes env.name searchTerm)

/-- The script's `exactMatches`: `environments.items.filter(...)`. -/
def exactMatches (searchTerm : String) (items : List EnvRecord) : List EnvRecord :=
  items.filter (isExactMatch searchTerm)

/-- The script's `partialMatches`: `environments.items.filter(...)`. -/
def partialMatches (searchTerm : String) (items : List EnvRecord) : List EnvRecord :=
  items.filter (isPartialMatch searchTerm)

/-- The script's `allMatches`: `[...exactMatches, ...partialMatches]`. -/
def allMatches (searchTerm : String) (items : List EnvRecord) : List EnvRecord :=
  exactMatches searchTerm items ++ partialMatches searchTerm items

/-- The two sample records used by the spec's worked example. -/
def sampleItems : List EnvRecord :=
  [⟨"test-env", "test-env"⟩, ⟨"old-test-env-backup", "backup"⟩]

theorem isExactMatch_iff (term : String) (e : EnvRecord) :
    isExactMatch term e = true ↔ (e.id = term ∨ e.name = term) := by
  simp [isExactMatch, or_comm]

theorem isPartialMatch_iff (term : String) (e : EnvRecord) :
    isPartialMatch term e = true ↔
      ¬(e.id = term ∨ e.name = term) ∧
        (SubstringOf term.data e.id.data ∨ SubstringOf term.data e.name.data) := by
  simp [isPartialMatch, strIncludes, containsSubL_iff, or_comm, not_or]
  tauto

/-- C2: the exact-match list is exactly the records whose id or name equals
the term, and on the spec's worked example it is the single record
`{id:"test-env"}`. -/
theorem exactMatches_characterisation :
    (∀ (term : String) (items : List EnvRecord),
      exactMatches term items =
        items.filter (fun e => decide (e.id = term ∨ e.name = term))) ∧
    exactMatches "test-env" sampleItems = [⟨"test-env", "test-env"⟩] := by
  constructor
  · intro term items
    apply List.filter_congr
    intro e _
    rw [Bool.eq_iff_iff, isExactMatch_iff]
    simp
  · decide

/-- C3: the partial-match list is exactly the records that are not exact
matches and whose id or name contains the term as a substring, and on the
spec's worked example it is the single record `{id:"old-test-env-backup"}`. -/
theorem partialMatches_characterisation :
    (∀ (term : String) (items : List EnvRecord),
      partialMatches term items =
        items.filter (fun e => decide (¬(e.id = term ∨ e.name = term) ∧
          (SubstringOf term.data e.id.data ∨ SubstringOf term.data e.name.data)))) ∧
    partialMatches "test-env" sampleItems = [⟨"old-test-env-backup", "backup"⟩] := by
  constructor
  · intro term items
    apply List.filter_congr
    intro e _
    rw [Bool.eq_iff_iff, isPartialMatch_iff]
    simp
  · decide

theorem substringOf_of_eq (l : List Char) : SubstringOf l l :=
  ⟨[], [], by simp⟩

/-- C4: the combined list is the exact matches followed by the partial
matches, each sub-list is a subsequence of the fetched list (original fetch
order), and concatenation neither reorders further nor deduplicates
(multiplicities add up). -/
theorem allMatches_order (term : String) (items : List EnvRecord) :
    allMatches term items = exactMatches term items ++ partialMatches term items ∧
    (exactMatches term items).Sublist items ∧
    (partialMatches term items).Sublist items ∧
    (∀ e : EnvRecord, (allMatches term items).count e =
      (exactMatches term items).count e + (partialMatches term items).count e) := by
  refine ⟨rfl, List.filter_sublist items, List.filter_sublist items, ?_⟩
  intro e
  exact List.count_append e _ _

theorem not_isPartialMatch_of_isExactMatch (term : String) (e : EnvRecord)
    (h : isExactMatch term e = true) : isPartialMatch term e = false := by
  simp only [isExactMatch] at h
  simp only [isPartialMatch, h, Bool.not_true, Bool.false_and]

theorem mem_allMatches_iff (term : String) (items : List EnvRecord) (e : EnvRecord) :
    e ∈ allMatches term items ↔
      e ∈ items ∧
        (SubstringOf term.data e.id.data ∨ SubstringOf term.data e.name.data) := by
  constructor
  · intro hmem
    rcases List.mem_append.mp hmem with hmem | hmem
    · have h1 := (List.mem_filter.mp hmem).2
      rw [isExactMatch_iff] at h1
      refine ⟨(List.mem_filter.mp hmem).1, ?_⟩
      rcases h1 with h1 | h1
      · exact Or.inl (h1 ▸ substringOf_of_eq term.data)
      · exact Or.inr (h1 ▸ substringOf_of_eq term.data)
    · have h1 := (List.mem_filter.mp hmem).2
      rw [isPartialMatch_iff] at h1
      exact ⟨(List.mem_filter.mp hmem).1, h1.2⟩
  · rintro ⟨hin, hsub⟩
    by_cases hx : isExactMatch term e = true
    · exact List.mem_append.mpr (Or.inl (List.mem_filter.mpr ⟨hin, hx⟩))
    · refine List.mem_append.mpr (Or.inr (List.mem_filter.mpr ⟨hin, ?_⟩))
      rw [isPartialMatch_iff]
      rw [isExactMatch_iff] at hx
      exact ⟨hx, hsub⟩

/-- C9 (implicit): the exact and partial lists are disjoint, no record occurs
in the combined result more often than in the fetched list (at most once when
the fetched list has no duplicates), and the combined result holds exactly the
records whose id or name contains the term as a substring. -/
theorem allMatches_algebra (term : String) (items : List EnvRecord) :
    (∀ e, e ∈ exactMatches term items → e ∉ partialMatches term items) ∧
    (∀ e, (allMatches term items).count e ≤ items.count e) ∧
    (items.Nodup → (allMatches term items).Nodup) ∧
    (∀ e, e ∈ allMatches term items ↔
      e ∈ items ∧
        (SubstringOf term.data e.id.data ∨ SubstringOf term.data e.name.data)) := by
  have hdisj : ∀ e, e ∈ exactMatches term items → e ∉ partialMatches term items := by
    intro e he hp
    have h1 := (List.mem_filter.mp he).2
    have h2 := (List.mem_filter.mp hp).2
    rw [not_isPartialMatch_of_isExactMatch term e h1] at h2
    exact Bool.false_ne_true h2
  have hcount : ∀ e, (allMatches term items).count e ≤ items.count e := by
    intro e
    rw [show allMatches term items = _ ++ _ from rfl, List.count_append]
    by_cases hx : isExactMatch term e = true
    · have h0 : (partialMatches term items).count e = 0 := by
        rw [List.count_eq_zero]
        intro hmem
        have h2 := (List.mem_filter.mp hmem).2
        rw [not_isPartialMatch_of_isExactMatch term e hx] at h2
        exact Bool.false_ne_true h2
      rw [h0, Nat.add_zero]
      exact (List.filter_sublist items).count_le e
    · have h0 : (exactMatches term items).count e = 0 := by
        rw [List.count_eq_zero]
        intro hmem
        exact hx (List.mem_filter.mp hmem).2
      rw [h0, Nat.zero_add]
      exact (List.filter_sublist items).count_le e
  refine ⟨hdisj, hcount, ?_, mem_allMatches_iff term items⟩
  intro hnd
  rw [List.nodup_iff_count_le_one] at hnd ⊢
  intro e
  exact le_trans (hcount e) (hnd e)

theorem allMatches_algebra_witness :
    (⟨"test-env", "test-env"⟩ : EnvRecord) ∉ partialMatches "test-env" sampleItems ∧
    (allMatches "test-env" sampleItems).count ⟨"test-env", "test-env"⟩ ≤
      sampleItems.count ⟨"test-env", "test-env"⟩ ∧
    (allMatches "test-env" sampleItems).Nodup :=
  ⟨(allMatches_algebra "test-env" sampleItems).1 _ (by decide),
   (allMatches_algebra "test-env" sampleItems).2.1 _,
   (allMatches_algebra "test-env" sampleItems).2.2.1 (by decide)⟩

/-- JS truthiness of an optional environment-variable / property string:
`undefined` and `""` are falsy. -/
def isFalsyStr : Option String → Bool
  | none => true
  | some s => s.isEmpty

/-- Outcome of the validation prologue: the error lines printed, the exit
code passed to `process.exit` (if any), and whether control reaches the
`try` block that makes the first network call. -/
structure ConfigCheckResult where
  errors : List String
  exitCode : Option Nat
  networkAttempted : Bool
deriving DecidableEq

/-- The validation prologue of `checkContentfulEnvironment`: each `if` prints
one error and calls `process.exit(1)`, so execution stops at the first falsy
variable; the `try` block (the first network call) runs only when all three
variables are set. -/
def runConfigCheck (spaceId accessToken branchName : Option String) : ConfigCheckResult :=
  if isFalsyStr spaceId then
    ⟨["❌ Error: CONTENTFUL_SPACE_ID is not set"], some 1, false⟩
  else if isFalsyStr accessToken then
    ⟨["❌ Error: CONTENTFUL_MANAGEMENT_TOKEN is not set"], some 1, false⟩
  else if isFalsyStr branchName then
    ⟨["❌ Error: BRANCH_NAME is not set"], some 1, false⟩
  else ⟨[], none, true⟩

/-- C5 counterexample: with both the space id and the token missing, only the
space-id error is reported — the token's absence is never mentioned, so it is
not the case that every missing variable is reported. -/
theorem runConfigCheck_first_error_only :
    (runConfigCheck none none (some "main")).exitCode = some 1 ∧
    (runConfigCheck none none (some "main")).networkAttempted = false ∧
    "❌ Error: CONTENTFUL_MANAGEMENT_TOKEN is not set" ∉
      (runConfigCheck none none (some "main")).errors := by
  decide

/-- C5 (amended): if any required variable is missing, the process exits with
code 1 before any network call, reporting exactly one error — the first
missing variable in the order space id, access token, branch name. -/
theorem runConfigCheck_missing_var (spaceId accessToken branchName : Option String)
    (h : isFalsyStr spaceId = true ∨ isFalsyStr accessToken = true ∨
      isFalsyStr branchName = true) :
    (runConfigCheck spaceId accessToken branchName).exitCode = some 1 ∧
    (runConfigCheck spaceId accessToken branchName).networkAttempted = false ∧
    (runConfigCheck spaceId accessToken branchName).errors =
      [if isFalsyStr spaceId then "❌ Error: CONTENTFUL_SPACE_ID is not set"
       else if isFalsyStr accessToken then "❌ Error: CONTENTFUL_MANAGEMENT_TOKEN is not set"
       else "❌ Error: BRANCH_NAME is not set"] := by
  rcases h with h | h | h
  · simp [runConfigCheck, h]
  · by_cases h1 : isFalsyStr spaceId = true <;> simp [runConfigCheck, h1, h]
  · by_cases h1 : isFalsyStr spaceId = true <;>
      by_cases h2 : isFalsyStr accessToken = true <;>
        simp [runConfigCheck, h1, h2, h]

theorem runConfigCheck_missing_var_witness :
    (runConfigCheck (some "sp") none (some "main")).exitCode = some 1 ∧
    (runConfigCheck (some "sp") none (some "main")).networkAttempted = false ∧
    (runConfigCheck (some "sp") none (some "main")).errors =
      [if isFalsyStr (some "sp") then "❌ Error: CONTENTFUL_SPACE_ID is not set"
       else if isFalsyStr (none : Option String) then
         "❌ Error: CONTENTFUL_MANAGEMENT_TOKEN is not set"
       else "❌ Error: BRANCH_NAME is not set"] :=
  runConfigCheck_missing_var (some "sp") none (some "main") (Or.inr (Or.inl (by decide)))

/-- The optional `error.response` object consulted by the `catch` block. -/
structure ApiResponse where
  status : Option Nat
  statusText : Option String

/-- The error value caught by the `catch` block. -/
structure ApiError where
  message : Option String
  response : Option ApiResponse

/-- JS truthiness of a numeric `error.response.status` (`0` is falsy). -/
def isTruthyNat : Option Nat → Bool
  | none => false
  | some n => n != 0

/-- The static troubleshooting hints printed at the end of the `catch`
block. -/
def troubleshootingTips : List String :=
  ["💡 Troubleshooting tips:",
   "   1. Verify your CONTENTFUL_MANAGEMENT_TOKEN is valid",
   "   2. Ensure the token has access to the specified space",
   "   3. Check that CONTENTFUL_SPACE_ID is correct"]

/-- The lines the `catch` block writes before the troubleshooting hints:
header, then `Message:`/`Status:`/`Status Text:` for each truthy field. -/
def errorReportHead (e : ApiError) : List String :=
  ["❌ Error occurred while querying Contentful:", ""] ++
  (match e.message with
   | some m => if m.isEmpty then [] else ["Message: " ++ m]
   | none => []) ++
  (match e.response with
   | some r =>
     (match r.status with
      | some s => if s = 0 then [] else ["Status: " ++ toString s]
      | none => []) ++
     (match r.statusText with
      | some t => if t.isEmpty then [] else ["Status Text: " ++ t]
      | none => [])
   | none => []) ++
  [""]

/-- All lines the `catch` block writes to stderr, in order. -/
def errorReport (e : ApiError) : List String :=
  errorReportHead e ++ troubleshootingTips

/-- The `catch` block ends with `process.exit(1)`. -/
def catchExitCode : Nat := 1

/-- C6: on an upstream API failure the printed report contains the error
message, the HTTP status and the status text whenever each is available
(truthy), the static troubleshooting hints close the report, and the process
exits with code 1. -/
theorem errorReport_contents (e : ApiError) :
    (∀ m, e.message = some m → m ≠ "" → ("Message: " ++ m) ∈ errorReport e) ∧
    (∀ r s, e.response = some r → r.status = some s → s ≠ 0 →
      ("Status: " ++ toString s) ∈ errorReport e) ∧
    (∀ r t, e.response = some r → r.statusText = some t → t ≠ "" →
      ("Status Text: " ++ t) ∈ errorReport e) ∧
    (∃ pre, errorReport e = pre ++ troubleshootingTips) ∧
    catchExitCode = 1 := by
  refine ⟨?_, ?_, ?_, ⟨errorReportHead e, rfl⟩, rfl⟩
  · intro m hm hne
    have hie : m.isEmpty = false := by
      rw [Bool.eq_false_iff]
      intro hcontra
      exact hne ((String.isEmpty_iff _).mp hcontra)
    simp [errorReport, errorReportHead, hm, hie]
  · intro r s hr hs hs0
    simp [errorReport, errorReportHead, hr, hs, hs0]
  · intro r t hr ht hne
    have hie : t.isEmpty = false := by
      rw [Bool.eq_false_iff]
      intro hcontra
      exact hne ((String.isEmpty_iff _).mp hcontra)
    simp [errorReport, errorReportHead, hr, ht, hie]

/-- The 401 failure the spec uses as its example. -/
def sampleAuthError : ApiError :=
  ⟨some "Unauthorized", some ⟨some 401, some "Unauthorized"⟩⟩

theorem errorReport_contents_witness :
    ("Message: " ++ "Unauthorized") ∈ errorReport sampleAuthError ∧
    ("Status: " ++ toString 401) ∈ errorReport sampleAuthError ∧
    ("Status Text: " ++ "Unauthorized") ∈ errorReport sampleAuthError :=
  ⟨(errorReport_contents sampleAuthError).1 "Unauthorized" rfl (by decide),
   (errorReport_contents sampleAuthError).2.1 _ 401 rfl rfl (by decide),
   (errorReport_contents sampleAuthError).2.2.1 _ "Unauthorized" rfl rfl (by decide)⟩

/-- Outcome of the reporting tail of the `try` block: the matches displayed,
the records enumerated under “Available environments”, and the process exit
code. -/
structure MatchReport where
  displayedMatches : List EnvRecord
  listedAvailable : List EnvRecord
  exitCode : Nat
deriving DecidableEq

/-- The reporting tail of the `try` block: when `allMatches.length > 0` the
matches are displayed; otherwise the full fetched list is enumerated. The
function returns without calling `process.exit`, so the process exits 0 in
both cases. -/
def reportMatches (searchTerm : String) (items : List EnvRecord) : MatchReport :=
  let all := allMatches searchTerm items
  if all.length > 0 then ⟨all, [], 0⟩ else ⟨all, items, 0⟩

/-- C7: when the search term matches no record, the run still exits with
code 0, the result set is empty, and the whole fetched list is enumerated in
the output. -/
theorem zero_matches_success (term : String) (items : List EnvRecord)
    (h : ∀ e ∈ items,
      ¬(SubstringOf term.data e.id.data ∨ SubstringOf term.data e.name.data)) :
    (reportMatches term items).exitCode = 0 ∧
    (reportMatches term items).displayedMatches = [] ∧
    (reportMatches term items).listedAvailable = items := by
  have hempty : allMatches term items = [] := by
    rw [List.eq_nil_iff_forall_not_mem]
    intro e hmem
    have := (mem_allMatches_iff term items e).mp hmem
    exact h e this.1 this.2
  simp [reportMatches, hempty]

theorem zero_matches_success_witness :
    (reportMatches "zzz" [⟨"master", "master"⟩]).exitCode = 0 ∧
    (reportMatches "zzz" [⟨"master", "master"⟩]).displayedMatches = [] ∧
    (reportMatches "zzz" [⟨"master", "master"⟩]).listedAvailable =
      [⟨"master", "master"⟩] :=
  zero_matches_success "zzz" [⟨"master", "master"⟩] (by decide)

/-- The script's rendering of a user reference in a displayed record: the
`Created by:` / `Updated by:` lines print `env.sys.createdBy.sys.id` /
`env.sys.updatedBy.sys.id` — the raw id, with no lookup of user details (the
script performs no secondary user-detail fetch at all). -/
def renderedUserRef (userId : String) : String := userId

/-- The creator line as printed:
`   Created by: ${env.sys.createdBy.sys.id}`. -/
def createdByLine (userId : String) : String :=
  "   Created by: " ++ renderedUserRef userId

/-- Resolved user details as the spec describes them. -/
structure UserDetails where
  firstName : Option String
  lastName : Option String
  email : Option String

/-- Modelled from the spec: the user-info formatting §4.3 describes (“if
resolved, render `"First Last (email)"`, falling back to email alone if no
name, falling back to the raw id if neither name nor email; if the lookup map
itself is unavailable, render the raw id”). The script contains no such
formatter — this definition exists only to compare the spec's description
with the source's `renderedUserRef`. -/
def formatUserInfoSpec (resolved : Option (String → Option UserDetails))
    (userId : String) : String :=
  match resolved with
  | none => userId
  | some lookup =>
    match lookup userId with
    | none => userId
    | some u =>
      match u.firstName, u.lastName, u.email with
      | some f, some l, some em => f ++ " " ++ l ++ " (" ++ em ++ ")"
      | _, _, some em => em
      | _, _, none => userId

/-- A resolved-user map holding full details for one sample user id. -/
def sampleResolvedUsers : String → Option UserDetails :=
  fun uid =>
    if uid = "5xXxXx" then some ⟨some "Jane", some "Doe", some "jane@example.com"⟩
    else none

/-- C8 counterexample: for a user id resolved to first name, last name and
email, the claim requires the rendering `"Jane Doe (jane@example.com)"`, but
the script renders the raw id — it never consults any resolved-user map, and
no secondary user-detail fetch exists in the source. -/
theorem renderedUserRef_ignores_resolved_users :
    formatUserInfoSpec (some sampleResolvedUsers) "5xXxXx" =
      "Jane Doe (jane@example.com)" ∧
    renderedUserRef "5xXxXx" = "5xXxXx" ∧
    renderedUserRef "5xXxXx" ≠
      formatUserInfoSpec (some sampleResolvedUsers) "5xXxXx" := by
  refine ⟨?_, rfl, ?_⟩ <;> decide

/-- C8 (amended): every user reference in a displayed record is rendered as
the raw user id — the script resolves no user names or emails (the secondary
user-detail fetch the spec describes does not exist in the source), so no
user-detail failure can abort the run. -/
theorem renderedUserRef_raw_id (userId : String) :
    renderedUserRef userId = userId ∧
    createdByLine userId = "   Created by: " ++ userId :=
  ⟨rfl, rfl⟩

/-- C10 counterexample: the branch name `"feat/x/"` ends with `'/'`, yet its
search term is `"x/"`, not the empty string; and with the empty search term a
record with an empty id that sits mid-list is moved to the front as an exact
match, so the combined result differs from the fetched list. -/
theorem emptyTerm_counterexample :
    searchName "feat/x/" ≠ "" ∧
    allMatches "" [⟨"a", "a"⟩, ⟨"", "e"⟩] ≠ [⟨"a", "a"⟩, ⟨"", "e"⟩] := by
  decide

theorem afterFirstSlash_append_slash (s : List Char) (h : ¬ '/' ∈ s) :
    afterFirstSlash (s ++ ['/']) = [] := by
  induction s with
  | nil => simp [afterFirstSlash]
  | cons c cs ih =>
    have hc : c ≠ '/' := fun hEq => h (hEq ▸ List.mem_cons_self c cs)
    have hcs : ¬ '/' ∈ cs := fun hm => h (List.mem_cons_of_mem c hm)
    simpa [afterFirstSlash, hc] using ih hcs

theorem isPartialMatch_empty_term (e : EnvRecord) :
    isPartialMatch "" e = !(isExactMatch "" e) := by
  have h1 : strIncludes e.id "" = true := containsSubL_nil e.id.data
  have h2 : strIncludes e.name "" = true := containsSubL_nil e.name.data
  simp [isPartialMatch, isExactMatch, h1, h2]

/-- C10 (amended): a branch name of the form `seg ++ "/"` with slash-free
`seg` yields the empty search term; the empty term makes every record match
(exactly iff its id or name is the empty string, partially otherwise), and the
combined result is a permutation of the fetched list — exact matches are
pulled to the front — equal to it whenever no record has an empty id or an
empty name. -/
theorem emptyTerm_matches_everything :
    (∀ s : List Char, ¬ '/' ∈ s → searchNameL (s ++ ['/']) = []) ∧
    (∀ e : EnvRecord, isExactMatch "" e = true ↔ (e.id = "" ∨ e.name = "")) ∧
    (∀ e : EnvRecord, isExactMatch "" e = true ∨ isPartialMatch "" e = true) ∧
    (∀ items : List EnvRecord, (allMatches "" items).Perm items) ∧
    (∀ items : List EnvRecord, (∀ e ∈ items, e.id ≠ "" ∧ e.name ≠ "") →
      allMatches "" items = items) := by
  have hPerm : ∀ items : List EnvRecord, (allMatches "" items).Perm items := by
    intro items
    have hpart : partialMatches "" items =
        items.filter (fun e => !(isExactMatch "" e)) := by
      apply List.filter_congr
      intro e _
      exact isPartialMatch_empty_term e
    rw [show allMatches "" items = _ ++ _ from rfl, hpart]
    exact List.filter_append_perm (isExactMatch "") items
  refine ⟨?_, ?_, ?_, hPerm, ?_⟩
  · intro s hs
    have hmem : '/' ∈ s ++ ['/'] := List.mem_append.mpr (Or.inr (by simp))
    rw [searchNameL_of_slash (s ++ ['/']) ((hasSlash_iff_mem _).mpr hmem)]
    exact afterFirstSlash_append_slash s hs
  · intro e
    exact isExactMatch_iff "" e
  · intro e
    by_cases hx : isExactMatch "" e = true
    · exact Or.inl hx
    · refine Or.inr ?_
      rw [isPartialMatch_empty_term e, Bool.eq_false_iff.mpr hx]
      rfl
  · intro items hne
    have hexact : exactMatches "" items = [] := by
      show List.filter (isExactMatch "") items = []
      rw [List.filter_eq_nil_iff]
      intro e he
      rcases hne e he with ⟨h1, h2⟩
      intro hx
      rcases (isExactMatch_iff "" e).mp hx with h | h
      · exact h1 h
      · exact h2 h
    have hpart : partialMatches "" items = items := by
      show List.filter (isPartialMatch "") items = items
      rw [List.filter_eq_self]
      intro e he
      rw [isPartialMatch_empty_term e]
      rcases hne e he with ⟨h1, h2⟩
      have : isExactMatch "" e = false := by
        rw [Bool.eq_false_iff]
        intro hx
        rcases (isExactMatch_iff "" e).mp hx with h | h
        · exact h1 h
        · exact h2 h
      rw [this]
      rfl
    rw [show allMatches "" items = _ ++ _ from rfl, hexact, hpart, List.nil_append]

theorem emptyTerm_matches_everything_witness :
    searchNameL ("feat".data ++ ['/']) = [] ∧
    (allMatches "" [(⟨"master", "master"⟩ : EnvRecord)]).Perm
      [(⟨"master", "master"⟩ : EnvRecord)] ∧
    allMatches "" [(⟨"master", "master"⟩ : EnvRecord)] =
      [(⟨"master", "master"⟩ : EnvRecord)] :=
  ⟨emptyTerm_matches_everything.1 "feat".data (by decide),
   emptyTerm_matches_everything.2.2.2.1 _,
   emptyTerm_matches_everything.2.2.2.2 _ (by decide)⟩
